import Mathlib

/-!
Verification of the serde-hex codec library (Stremio/serde-hex).

Shallow embedding: byte buffers are `List Nat` of ASCII codes, unsigned
integers are `Nat` together with an explicit byte width `w`, fixed arrays
are `List Nat` of byte values together with their length `N`.

The sequence codec (`SerHexSeq::serialize`, `seq_from_bytes`) and the
option codec (`SerHexOpt`, `OptHexBytesVisitor`) are embedded from
`src/src/lib.rs`.  The configuration markers, the error type and the
per-width integer / per-length array codecs live in `src/config.rs`,
`src/types.rs`, `src/utils.rs` and `src/macros.rs`, which are absent from
the sources; those definitions are modelled from the spec, as their doc
comments state.
-/

namespace SerdeHex

/-- Modelled from the spec: the hex-digit alphabet (from the missing
`src/utils.rs`).  Maps an ASCII byte to its nibble value when it is one of
`0-9`, `a-f`, `A-F`, and to `none` otherwise. -/
def hexVal (b : Nat) : Option Nat :=
  if 48 ≤ b ∧ b ≤ 57 then some (b - 48)
  else if 97 ≤ b ∧ b ≤ 102 then some (b - 87)
  else if 65 ≤ b ∧ b ≤ 70 then some (b - 55)
  else none

/-- Lowercase ASCII hex digit of a nibble. -/
def hexDigitLower (n : Nat) : Nat := if n < 10 then 48 + n else 87 + n

/-- Uppercase ASCII hex digit of a nibble. -/
def hexDigitUpper (n : Nat) : Nat := if n < 10 then 48 + n else 55 + n

/-- ASCII hex digit of a nibble, honouring the capitalization flag. -/
def hexDigit (cap : Bool) (n : Nat) : Nat :=
  if cap then hexDigitUpper n else hexDigitLower n

/-- Modelled from the spec: the two boolean capability flags of the
configuration marker types (from the missing `src/config.rs`).  Strictness
— the third facet — is carried by which codec function is used, matching
the source's separate per-configuration impls. -/
structure HexConf where
  withpfx : Bool
  withcap : Bool

/-- Modelled from the spec: the decode error kinds of the missing
`src/types.rs` used by the value codecs. -/
inductive Error where
  | invalidDigit : Error
  | sizeMismatch (expected actual : Nat) : Error
  deriving DecidableEq

/-- Modelled from the spec: the `Display` rendering of the errors; a size
mismatch renders exactly as ``expected buff size `e` got `a` ``. -/
def Error.render : Error → String
  | .invalidDigit => "invalid hexadecimal character"
  | .sizeMismatch e a =>
      "expected buff size `" ++ toString e ++ "` got `" ++ toString a ++ "`"

/-- Modelled from the spec: value decode strips one leading `0x`/`0X`
marker if present, regardless of configuration (from the missing
`src/utils.rs`). -/
def stripPfx (l : List Nat) : List Nat :=
  match l with
  | a :: b :: rest => if a = 48 ∧ (b = 120 ∨ b = 88) then rest else a :: b :: rest
  | l => l

/-- Modelled from the spec: big-endian hex parsing of a digit buffer
(most-significant nibble first), failing on any non-digit byte. -/
def parseHexAcc (acc : Nat) : List Nat → Option Nat
  | [] => some acc
  | b :: rest =>
      match hexVal b with
      | some d => parseHexAcc (acc * 16 + d) rest
      | none => none

/-- Modelled from the spec: strict integer digit emission — exactly `2*w`
big-endian hex digits, zero padded (from `impl_serhex_uint!` in the
missing `src/macros.rs`). -/
def uintStrictDigits (cap : Bool) : Nat → Nat → List Nat
  | 0, _ => []
  | w + 1, v =>
      uintStrictDigits cap w (v / 256) ++
        [hexDigit cap (v % 256 / 16), hexDigit cap (v % 16)]

/-- Modelled from the spec: strict integer encode, with the optional `0x`
marker and capitalization chosen by the configuration. -/
def uintIntoHex (c : HexConf) (w v : Nat) : List Nat :=
  (if c.withpfx then [48, 120] else []) ++ uintStrictDigits c.withcap w v

/-- Modelled from the spec: strict integer decode — after stripping an
optional leading marker, exactly `2*w` digits are required, else
`SizeMismatch`; a non-digit byte gives `InvalidDigit`. -/
def uintFromHexStrict (w : Nat) (src : List Nat) : Except Error Nat :=
  if (stripPfx src).length = 2 * w then
    match parseHexAcc 0 (stripPfx src) with
    | some v => .ok v
    | none => .error .invalidDigit
  else .error (.sizeMismatch (2 * w) (stripPfx src).length)

/-- Fuel-driven minimal big-endian nibble expansion; the fuel is always
instantiated with a bound on the value. -/
def nibblesGo : Nat → Nat → List Nat
  | 0, v => [v % 16]
  | f + 1, v => if v < 16 then [v] else nibblesGo f (v / 16) ++ [v % 16]

/-- Modelled from the spec: minimal big-endian nibble list of a value; the
value `0` is the single nibble `0`, and a nonzero value has no leading
zero nibble. -/
def nibbles (v : Nat) : List Nat := nibblesGo v v

/-- Modelled from the spec: compact integer digit emission (minimal
width). -/
def uintCompactDigits (cap : Bool) (v : Nat) : List Nat :=
  (nibbles v).map (hexDigit cap)

/-- Modelled from the spec: compact integer encode with the optional `0x`
marker. -/
def uintIntoHexCompact (c : HexConf) (v : Nat) : List Nat :=
  (if c.withpfx then [48, 120] else []) ++ uintCompactDigits c.withcap v

/-- Modelled from the spec: compact integer decode accepts any digit count
in `1..=2*w` after stripping an optional marker and fails with
`SizeMismatch` otherwise. -/
def uintFromHexCompact (w : Nat) (src : List Nat) : Except Error Nat :=
  if 1 ≤ (stripPfx src).length ∧ (stripPfx src).length ≤ 2 * w then
    match parseHexAcc 0 (stripPfx src) with
    | some v => .ok v
    | none => .error .invalidDigit
  else .error (.sizeMismatch (2 * w) (stripPfx src).length)

/-- Fuel-driven chunking of a buffer into pieces of `k` bytes (the last
piece possibly shorter), mirroring Rust's `slice::chunks`; the fuel is
always instantiated with the buffer length. -/
def chunksGo (k : Nat) : Nat → List Nat → List (List Nat)
  | 0, _ => []
  | _, [] => []
  | f + 1, x :: xs => (x :: xs).take k :: chunksGo k f ((x :: xs).drop k)

/-- Pieces of `k` bytes of a buffer (`slice::chunks`).  Rust panics on
`k = 0`; every call site in the embedding guards `k ≠ 0`, and the `k = 0`
value here is arbitrary. -/
def chunksList (k : Nat) (l : List Nat) : List (List Nat) :=
  if k = 0 then [] else chunksGo k l.length l

/-- Modelled from the spec: strict byte-array encode — each byte as two hex
digits in array order, one optional marker at the start (from
`impl_serhex_strict_array!` in the missing `src/macros.rs`). -/
def arrayIntoHex (c : HexConf) (bytes : List Nat) : List Nat :=
  (if c.withpfx then [48, 120] else []) ++
    (bytes.map (fun b => uintStrictDigits c.withcap 1 b)).flatten

/-- Modelled from the spec: strict `N`-byte-array decode.  When the
stripped digit count is below `N` the per-slot chunk width `len / N` is
zero and the error is `SizeMismatch` with byte counts
(`expected N got len/2`); otherwise the digits are split into pieces of
`len / N` bytes, each decoded by the element codec's strict decode — which
reproduces the spec's literal ``expected buff size `2` got `1` `` case for
a 20-digit input against a 20-byte array — and the element count must come
out as `N`. -/
def arrayFromHex (N : Nat) (src : List Nat) : Except Error (List Nat) :=
  if (stripPfx src).length / N = 0 then
    .error (.sizeMismatch N ((stripPfx src).length / 2))
  else
    match (chunksList ((stripPfx src).length / N) (stripPfx src)).mapM
        (fun c => uintFromHexStrict 1 c) with
    | .ok elems =>
        if elems.length = N then .ok elems
        else .error (.sizeMismatch N elems.length)
    | .error e => .error e

/-- Result of the sequence decoder `seq_from_bytes`
(src/src/lib.rs:429-454): success, the custom "bad hexadecimal sequence
size" error, an element decode error, or a Rust panic. -/
inductive SeqResult where
  | ok (elems : List Nat) : SeqResult
  | badSequenceSize : SeqResult
  | elemError (e : Error) : SeqResult
  | panic : SeqResult
  deriving DecidableEq

/-- Marker stripping of `seq_from_bytes` (src/src/lib.rs:435-439): only the
exact lowercase pair `0x` is stripped (`raw.starts_with(b"0x")`). -/
def seqStripPfx (raw : List Nat) : List Nat :=
  match raw with
  | a :: b :: rest => if a = 48 ∧ b = 120 then rest else a :: b :: rest
  | l => l

/-- Body of `seq_from_bytes` after marker stripping (src/src/lib.rs:441-453)
with `hexsize = size_hint * 2`.  Rust evaluates `src.len() % hexsize`
before the `hexsize != 0` conjunct, so a zero `hexsize` is a remainder-by-
zero panic; otherwise the guard selects chunked element decoding or the
"bad hexadecimal sequence size" error. -/
def seqDecodeBody (elemDec : List Nat → Except Error Nat) (src : List Nat)
    (size_hint : Nat) : SeqResult :=
  if size_hint * 2 = 0 then .panic
  else if src.length % (size_hint * 2) = 0 ∧ src ≠ [] then
    match (chunksList (size_hint * 2) src).mapM elemDec with
    | .ok elems => .ok elems
    | .error e => .elemError e
  else .badSequenceSize

/-- `seq_from_bytes` (src/src/lib.rs:429-454): strip an optional lowercase
`0x`, then decode fixed-width chunks through the element codec. -/
def seq_from_bytes (elemDec : List Nat → Except Error Nat) (raw : List Nat)
    (size_hint : Nat) : SeqResult :=
  seqDecodeBody elemDec (seqStripPfx raw) size_hint

/-- `SerHexSeq::serialize` (src/src/lib.rs:341-364) at byte elements: one
optional marker at the start, then each element's strict (capitalized or
not) encoding, with no separators. -/
def seqSerialize (c : HexConf) (seq : List Nat) : List Nat :=
  (if c.withpfx then [48, 120] else []) ++
    (seq.map (fun b => uintStrictDigits c.withcap 1 b)).flatten

/-- Output of the host serializer at a single field: a plain string, a
present-wrapped string, or the null marker. -/
inductive SerOut where
  | str (s : List Nat) : SerOut
  | someStr (s : List Nat) : SerOut
  | null : SerOut
  deriving DecidableEq

/-- `SerHexOpt::serialize` (src/src/lib.rs:201-218): a present value's hex
text goes to `serialize_some`, absence goes to `serialize_none`. -/
def serHexOptSerialize (enc : Nat → List Nat) (o : Option Nat) : SerOut :=
  match o with
  | some v => .someStr (enc v)
  | none => .null

/-- Decode-delivery shapes the host framework can hand to a visitor. -/
inductive Delivery where
  | str (s : List Nat) : Delivery
  | bytes (b : List Nat) : Delivery
  | null : Delivery
  | unit : Delivery
  | present (d : Delivery) : Delivery

/-- `OptHexBytesVisitor` (src/src/lib.rs:250-310): strings and bytes are
decoded through the wrapped codec into `some`, the null and unit markers
give `none`, and a present wrapper recurses into the same byte-oriented
path (`visit_some` calls `deserialize_bytes(self)`). -/
def optVisit (dec : List Nat → Except Error Nat) :
    Delivery → Except Error (Option Nat)
  | .str s => (dec s).map some
  | .bytes b => (dec b).map some
  | .null => .ok none
  | .unit => .ok none
  | .present d => optVisit dec d

/-- ASCII codes of a string. -/
def strBytes (s : String) : List Nat := s.data.map (fun c => c.toNat)

/-- String from ASCII codes. -/
def bytesToString (l : List Nat) : String :=
  String.mk (l.map (fun b => Char.ofNat b))

deriving instance DecidableEq for Except

/-- Hex-digit bytes (either case). -/
def isDigitByte (b : Nat) : Prop :=
  (48 ≤ b ∧ b ≤ 57) ∨ (65 ≤ b ∧ b ≤ 70) ∨ (97 ≤ b ∧ b ≤ 102)

instance (b : Nat) : Decidable (isDigitByte b) := by
  unfold isDigitByte; exact inferInstance

/-- Digit bytes of a capitalized encoding: `0-9` or `A-F`. -/
def isUpperHexByte (b : Nat) : Prop :=
  (48 ≤ b ∧ b ≤ 57) ∨ (65 ≤ b ∧ b ≤ 70)

instance (b : Nat) : Decidable (isUpperHexByte b) := by
  unfold isUpperHexByte; exact inferInstance

/-- Lowercasing of the six hex letters, fixing every other byte. -/
def caseFold (b : Nat) : Nat := if 65 ≤ b ∧ b ≤ 70 then b + 32 else b

/-! Basic lemmas about digits and parsing. -/

theorem hexVal_hexDigit : ∀ (cap : Bool) (n : Nat), n < 16 →
    hexVal (hexDigit cap n) = some n := by
  intro cap
  cases cap <;> decide

theorem isDigitByte_hexDigit : ∀ (cap : Bool) (n : Nat), n < 16 →
    isDigitByte (hexDigit cap n) := by
  intro cap
  cases cap <;> decide

theorem isDigitByte_ne (b : Nat) (h : isDigitByte b) : b ≠ 120 ∧ b ≠ 88 := by
  rcases h with h | h | h <;> omega

theorem hexVal_isSome (b : Nat) (h : isDigitByte b) : (hexVal b).isSome := by
  unfold hexVal
  rcases h with h | h | h <;> split_ifs <;> simp_all

theorem stripPfx_digits (l : List Nat) (h : ∀ b ∈ l, isDigitByte b) :
    stripPfx l = l := by
  cases l with
  | nil => rfl
  | cons a t =>
    cases t with
    | nil => rfl
    | cons b rest =>
      have hb : isDigitByte b := h b (by simp)
      have hcond : ¬(a = 48 ∧ (b = 120 ∨ b = 88)) := by
        rintro ⟨-, hb' | hb'⟩
        · exact (isDigitByte_ne _ hb).1 hb'
        · exact (isDigitByte_ne _ hb).2 hb'
      simp [stripPfx, hcond]

theorem stripPfx_marker (p l : List Nat) (hp : p = [48, 120] ∨ p = [48, 88]) :
    stripPfx (p ++ l) = l := by
  rcases hp with rfl | rfl <;> simp [stripPfx]

theorem stripPfx_sides (p l : List Nat)
    (hp : p = [] ∨ p = [48, 120] ∨ p = [48, 88])
    (h : ∀ b ∈ l, isDigitByte b) : stripPfx (p ++ l) = l := by
  rcases hp with rfl | hp
  · simpa using stripPfx_digits l h
  · exact stripPfx_marker p l hp

theorem parseHexAcc_append (l₁ l₂ : List Nat) (acc : Nat) :
    parseHexAcc acc (l₁ ++ l₂) =
      (parseHexAcc acc l₁).bind (fun a => parseHexAcc a l₂) := by
  induction l₁ generalizing acc with
  | nil => rfl
  | cons b rest ih =>
    simp only [List.cons_append, parseHexAcc]
    cases hexVal b <;> simp [ih]

theorem parseHexAcc_isSome (l : List Nat) (h : ∀ b ∈ l, isDigitByte b) :
    ∀ acc, ∃ v, parseHexAcc acc l = some v := by
  induction l with
  | nil => exact fun acc => ⟨acc, rfl⟩
  | cons b rest ih =>
    intro acc
    have hb := hexVal_isSome b (h b (by simp))
    obtain ⟨d, hd⟩ := Option.isSome_iff_exists.mp hb
    simpa [parseHexAcc, hd] using ih (fun x hx => h x (by simp [hx])) (acc * 16 + d)

/-! Lemmas about the strict integer digits. -/

theorem length_strictDigits (cap : Bool) (w : Nat) :
    ∀ v, (uintStrictDigits cap w v).length = 2 * w := by
  induction w with
  | zero => intro v; rfl
  | succ w ih =>
    intro v
    simp only [uintStrictDigits, List.length_append, ih, List.length_cons,
      List.length_nil]
    omega

theorem strictDigits_isDigitByte (cap : Bool) (w : Nat) :
    ∀ v, ∀ b ∈ uintStrictDigits cap w v, isDigitByte b := by
  induction w with
  | zero => intro v b hb; simp [uintStrictDigits] at hb
  | succ w ih =>
    intro v b hb
    simp only [uintStrictDigits, List.mem_append, List.mem_cons,
      List.not_mem_nil, or_false] at hb
    rcases hb with hb | rfl | rfl
    · exact ih _ b hb
    · exact isDigitByte_hexDigit cap _ (by omega)
    · exact isDigitByte_hexDigit cap _ (Nat.mod_lt _ (by norm_num))

theorem parseHexAcc_strictDigits (cap : Bool) (w : Nat) :
    ∀ (v acc : Nat), parseHexAcc acc (uintStrictDigits cap w v) =
      some (acc * 256 ^ w + v % 256 ^ w) := by
  induction w with
  | zero => intro v acc; simp [uintStrictDigits, parseHexAcc, Nat.mod_one]
  | succ w ih =>
    intro v acc
    have h256 : v % 256 < 256 := Nat.mod_lt _ (by norm_num)
    have h1 : hexVal (hexDigit cap (v % 256 / 16)) = some (v % 256 / 16) :=
      hexVal_hexDigit _ _ (by omega)
    have h2 : hexVal (hexDigit cap (v % 16)) = some (v % 16) :=
      hexVal_hexDigit _ _ (Nat.mod_lt _ (by norm_num))
    rw [uintStrictDigits, parseHexAcc_append, ih]
    simp only [Option.some_bind, parseHexAcc, h1, h2]
    have e1 : v % 16 = v % 256 % 16 := (Nat.mod_mod_of_dvd v (by norm_num)).symm
    have e3 : v % 256 ^ (w + 1) = v % 256 + 256 * (v / 256 % 256 ^ w) := by
      rw [pow_succ, mul_comm, Nat.mod_mul]
    have e4 : (256 : Nat) ^ (w + 1) = 256 ^ w * 256 := pow_succ 256 w
    congr 1
    rw [e3, e4, e1, ← mul_assoc]
    generalize (256 : Nat) ^ w = P
    generalize v / 256 % P = m
    generalize acc * P = A
    omega

/-! The strict integer round trip. -/

theorem stripPfx_uintIntoHex (c : HexConf) (w v : Nat) :
    stripPfx (uintIntoHex c w v) = uintStrictDigits c.withcap w v := by
  unfold uintIntoHex
  cases hc : c.withpfx
  · simpa using stripPfx_digits _ (strictDigits_isDigitByte c.withcap w v)
  · exact stripPfx_marker _ _ (Or.inl rfl)

theorem uint_roundtrip (c : HexConf) (w v : Nat) (hv : v < 256 ^ w) :
    uintFromHexStrict w (uintIntoHex c w v) = .ok v := by
  unfold uintFromHexStrict
  rw [stripPfx_uintIntoHex, length_strictDigits, parseHexAcc_strictDigits]
  simp [Nat.mod_eq_of_lt hv]

/-! Lemmas about chunking. -/

theorem chunksGo_nil (k f : Nat) : chunksGo k f [] = [] := by
  cases f <;> rfl

theorem chunksGo_fuel (k : Nat) (hk : k ≠ 0) :
    ∀ (f₁ : Nat) (l : List Nat) (f₂ : Nat), l.length ≤ f₁ → l.length ≤ f₂ →
      chunksGo k f₁ l = chunksGo k f₂ l := by
  intro f₁
  induction f₁ with
  | zero =>
    intro l f₂ h1 h2
    have hl : l = [] := List.eq_nil_of_length_eq_zero (by omega)
    subst hl
    rw [chunksGo_nil, chunksGo_nil]
  | succ f ih =>
    intro l f₂ h1 h2
    cases l with
    | nil => rw [chunksGo_nil, chunksGo_nil]
    | cons x xs =>
      cases f₂ with
      | zero => simp at h2
      | succ g =>
        simp only [List.length_cons] at h1 h2
        show (x :: xs).take k :: chunksGo k f ((x :: xs).drop k) =
          (x :: xs).take k :: chunksGo k g ((x :: xs).drop k)
        congr 1
        apply ih
        · simp only [List.length_drop, List.length_cons]; omega
        · simp only [List.length_drop, List.length_cons]; omega

theorem chunksList_nil (k : Nat) : chunksList k [] = [] := by
  unfold chunksList
  split
  · rfl
  · exact chunksGo_nil _ _

theorem chunksList_cons (k : Nat) (hk : k ≠ 0) (x : Nat) (xs : List Nat) :
    chunksList k (x :: xs) =
      (x :: xs).take k :: chunksList k ((x :: xs).drop k) := by
  unfold chunksList
  rw [if_neg hk, if_neg hk]
  show (x :: xs).take k :: chunksGo k xs.length ((x :: xs).drop k) = _
  congr 1
  apply chunksGo_fuel k hk
  · simp only [List.length_drop, List.length_cons]; omega
  · exact le_refl _

theorem chunksList_append (k : Nat) (hk : k ≠ 0) (l rest : List Nat)
    (hl : l.length = k) : chunksList k (l ++ rest) = l :: chunksList k rest := by
  subst hl
  have hlne : l ≠ [] := by
    intro h
    subst h
    exact hk rfl
  obtain ⟨x, xs, rfl⟩ := List.exists_cons_of_ne_nil hlne
  rw [List.cons_append, chunksList_cons _ hk]
  congr 1
  · rw [← List.cons_append]
    exact List.take_left _ _
  · congr 1
    rw [← List.cons_append]
    exact List.drop_left _ _

theorem chunksList_flatten_map (k : Nat) (hk : k ≠ 0) (f : Nat → List Nat)
    (hf : ∀ b, (f b).length = k) :
    ∀ bs : List Nat, chunksList k (bs.map f).flatten = bs.map f := by
  intro bs
  induction bs with
  | nil => simp [chunksList_nil]
  | cons b t ih =>
    simp only [List.map_cons, List.flatten_cons]
    rw [chunksList_append k hk _ _ (hf b), ih]

theorem length_flatten_map (f : Nat → List Nat) (k : Nat)
    (hf : ∀ b, (f b).length = k) :
    ∀ bs : List Nat, (bs.map f).flatten.length = k * bs.length := by
  intro bs
  induction bs with
  | nil => simp
  | cons b t ih =>
    simp only [List.map_cons, List.flatten_cons, List.length_append, ih, hf b,
      List.length_cons]
    ring

/-! Lemmas about `List.mapM` over `Except`. -/

theorem mapM_map {α β γ : Type} (m : α → β) (f : β → Except Error γ) :
    ∀ L : List α, (L.map m).mapM f = L.mapM (fun x => f (m x)) := by
  intro L
  induction L with
  | nil => rfl
  | cons a t ih => rw [List.map_cons, List.mapM_cons, List.mapM_cons, ih]

theorem mapM_ok_of_forall {α β : Type} (f : α → Except Error β) (g : α → β) :
    ∀ L : List α, (∀ a ∈ L, f a = .ok (g a)) → L.mapM f = .ok (L.map g) := by
  intro L
  induction L with
  | nil => intro _; rfl
  | cons a t ih =>
    intro h
    rw [List.map_cons, List.mapM_cons, h a (by simp),
      ih (fun x hx => h x (by simp [hx]))]
    rfl

theorem mapM_ok_inv {α β : Type} (f : α → Except Error β) :
    ∀ (L : List α) (es : List β), L.mapM f = .ok es →
      es.length = L.length ∧ ∀ a ∈ L, ∃ b, f a = .ok b := by
  intro L
  induction L with
  | nil =>
    intro es h
    rw [List.mapM_nil] at h
    cases h
    simp
  | cons a t ih =>
    intro es h
    rw [List.mapM_cons] at h
    cases hfa : f a with
    | error e => rw [hfa] at h; cases h
    | ok b =>
      rw [hfa] at h
      cases hml : t.mapM f with
      | error e =>
        rw [hml] at h
        cases h
      | ok bs =>
        rw [hml] at h
        cases h
        obtain ⟨hlen, hall⟩ := ih bs hml
        refine ⟨by simp [hlen], ?_⟩
        intro x hx
        rcases List.mem_cons.mp hx with rfl | hx
        · exact ⟨b, hfa⟩
        · exact hall x hx

theorem mapM_isOk {α β : Type} (f : α → Except Error β) :
    ∀ L : List α, (∀ a ∈ L, ∃ b, f a = .ok b) → ∃ es, L.mapM f = .ok es := by
  intro L
  induction L with
  | nil => intro _; exact ⟨[], rfl⟩
  | cons a t ih =>
    intro h
    obtain ⟨b, hb⟩ := h a (by simp)
    obtain ⟨es, hes⟩ := ih (fun x hx => h x (by simp [hx]))
    refine ⟨b :: es, ?_⟩
    rw [List.mapM_cons, hb, hes]
    rfl

/-! The strict array round trip. -/

theorem stripPfx_arrayIntoHex (c : HexConf) (bs : List Nat) :
    stripPfx (arrayIntoHex c bs) =
      (bs.map (fun b => uintStrictDigits c.withcap 1 b)).flatten := by
  unfold arrayIntoHex
  cases hc : c.withpfx
  · rw [if_neg (by simp), List.nil_append]
    apply stripPfx_digits
    intro b hb
    simp only [List.mem_flatten, List.mem_map] at hb
    obtain ⟨piece, ⟨x, _, rfl⟩, hbp⟩ := hb
    exact strictDigits_isDigitByte c.withcap 1 x b hbp
  · exact stripPfx_marker _ _ (Or.inl rfl)

theorem uintFromHexStrict_digits_ok (cap : Bool) (b : Nat) (hb : b < 256) :
    uintFromHexStrict 1 (uintStrictDigits cap 1 b) = .ok b := by
  have h := uint_roundtrip ⟨false, cap⟩ 1 b (by simpa using hb)
  simpa [uintIntoHex] using h

theorem array_roundtrip (c : HexConf) (bs : List Nat) (hne : bs ≠ [])
    (hbs : ∀ b ∈ bs, b < 256) :
    arrayFromHex bs.length (arrayIntoHex c bs) = .ok bs := by
  unfold arrayFromHex
  rw [stripPfx_arrayIntoHex]
  rw [length_flatten_map _ 2 (fun b => length_strictDigits c.withcap 1 b)]
  have hN : 0 < bs.length := List.length_pos.mpr hne
  have hdiv : 2 * bs.length / bs.length = 2 := Nat.mul_div_cancel 2 hN
  rw [hdiv]
  rw [chunksList_flatten_map 2 (by norm_num) _
    (fun b => length_strictDigits c.withcap 1 b) bs]
  rw [if_neg (by norm_num), mapM_map, mapM_ok_of_forall _ id _
    (fun x hx => by simpa using uintFromHexStrict_digits_ok c.withcap x (hbs x hx))]
  simp

/-! Acceptance characterisation of the strict decoders. -/

theorem uintFromHexStrict_ok_iff (w : Nat) (p ds : List Nat)
    (hp : p = [] ∨ p = [48, 120] ∨ p = [48, 88])
    (hds : ∀ b ∈ ds, isDigitByte b) :
    (∃ x, uintFromHexStrict w (p ++ ds) = .ok x) ↔ ds.length = 2 * w := by
  have hstrip : stripPfx (p ++ ds) = ds := stripPfx_sides p ds hp hds
  unfold uintFromHexStrict
  rw [hstrip]
  constructor
  · rintro ⟨x, hx⟩
    by_contra hlen
    rw [if_neg hlen] at hx
    cases hx
  · intro hlen
    rw [if_pos hlen]
    obtain ⟨v, hv⟩ := parseHexAcc_isSome ds hds 0
    exact ⟨v, by rw [hv]⟩

theorem uintFromHexStrict_ok_length (w : Nat) (src : List Nat) (x : Nat)
    (h : uintFromHexStrict w src = .ok x) : (stripPfx src).length = 2 * w := by
  unfold uintFromHexStrict at h
  by_contra hlen
  rw [if_neg hlen] at h
  cases h

theorem chunksGo_zero (k : Nat) : ∀ l : List Nat, chunksGo k 0 l = [] := by
  intro l
  cases l <;> rfl

theorem chunksGo_subset (k : Nat) :
    ∀ (f : Nat) (l c : List Nat), c ∈ chunksGo k f l → ∀ b ∈ c, b ∈ l := by
  intro f
  induction f with
  | zero =>
    intro l c hc b hb
    rw [chunksGo_zero] at hc
    simp at hc
  | succ f ih =>
    intro l c hc b hb
    cases l with
    | nil =>
      rw [chunksGo_nil] at hc
      simp at hc
    | cons x xs =>
      rw [show chunksGo k (f + 1) (x :: xs) =
        (x :: xs).take k :: chunksGo k f ((x :: xs).drop k) from rfl] at hc
      rcases List.mem_cons.mp hc with rfl | hc
      · exact List.take_subset _ _ hb
      · exact List.drop_subset _ _ (ih _ c hc b hb)

theorem chunksList_subset (k : Nat) (l c : List Nat) (hc : c ∈ chunksList k l) :
    ∀ b ∈ c, b ∈ l := by
  unfold chunksList at hc
  split at hc
  · simp at hc
  · exact chunksGo_subset k _ l c hc

theorem chunksGo_flatten (k : Nat) (hk : k ≠ 0) :
    ∀ (f : Nat) (l : List Nat), l.length ≤ f → (chunksGo k f l).flatten = l := by
  intro f
  induction f with
  | zero =>
    intro l h
    have hl : l = [] := List.eq_nil_of_length_eq_zero (by omega)
    subst hl
    rfl
  | succ f ih =>
    intro l h
    cases l with
    | nil => rfl
    | cons x xs =>
      simp only [List.length_cons] at h
      show ((x :: xs).take k :: chunksGo k f ((x :: xs).drop k)).flatten = x :: xs
      rw [List.flatten_cons,
        ih _ (by simp only [List.length_drop, List.length_cons]; omega)]
      exact List.take_append_drop k (x :: xs)

theorem chunksList_flatten (k : Nat) (hk : k ≠ 0) (l : List Nat) :
    (chunksList k l).flatten = l := by
  unfold chunksList
  rw [if_neg hk]
  exact chunksGo_flatten k hk _ l (le_refl _)

theorem flatten_length_const (k : Nat) :
    ∀ L : List (List Nat), (∀ c ∈ L, c.length = k) →
      L.flatten.length = k * L.length := by
  intro L
  induction L with
  | nil => simp
  | cons c t ih =>
    intro h
    simp only [List.flatten_cons, List.length_append, List.length_cons,
      ih (fun x hx => h x (by simp [hx])), h c (by simp)]
    ring

theorem chunksList_full (k : Nat) (hk : k ≠ 0) :
    ∀ (n : Nat) (l : List Nat), l.length = k * n →
      (chunksList k l).length = n ∧ ∀ c ∈ chunksList k l, c.length = k := by
  intro n
  induction n with
  | zero =>
    intro l hl
    have hl0 : l = [] := List.eq_nil_of_length_eq_zero (by omega)
    subst hl0
    simp [chunksList_nil]
  | succ n ih =>
    intro l hl
    rw [Nat.mul_succ] at hl
    have hlne : l ≠ [] := by
      intro h
      subst h
      simp at hl
      omega
    obtain ⟨x, xs, rfl⟩ := List.exists_cons_of_ne_nil hlne
    simp only [List.length_cons] at hl
    rw [chunksList_cons k hk]
    have htake : ((x :: xs).take k).length = k := by
      rw [List.length_take]
      simp only [List.length_cons]
      omega
    have hdrop : ((x :: xs).drop k).length = k * n := by
      rw [List.length_drop]
      simp only [List.length_cons]
      omega
    obtain ⟨hlen, hall⟩ := ih _ hdrop
    refine ⟨by simp [hlen], ?_⟩
    intro c hc
    rcases List.mem_cons.mp hc with rfl | hc
    · exact htake
    · exact hall c hc

theorem arrayFromHex_ok_iff (N : Nat) (hN : 1 ≤ N) (p ds : List Nat)
    (hp : p = [] ∨ p = [48, 120] ∨ p = [48, 88])
    (hds : ∀ b ∈ ds, isDigitByte b) :
    (∃ xs, arrayFromHex N (p ++ ds) = .ok xs) ↔ ds.length = 2 * N := by
  have hstrip : stripPfx (p ++ ds) = ds := stripPfx_sides p ds hp hds
  unfold arrayFromHex
  rw [hstrip]
  constructor
  · rintro ⟨xs, hxs⟩
    by_cases hchunk : ds.length / N = 0
    · rw [if_pos hchunk] at hxs
      cases hxs
    · rw [if_neg hchunk] at hxs
      split at hxs
      · rename_i elems hm
        split at hxs
        · rename_i hlen
          obtain ⟨hcount, hall⟩ := mapM_ok_inv _ _ _ hm
          have hpieces : ∀ c ∈ chunksList (ds.length / N) ds, c.length = 2 := by
            intro c hc
            obtain ⟨b, hb⟩ := hall c hc
            have h2 := uintFromHexStrict_ok_length 1 c b hb
            rw [stripPfx_digits c
              (fun y hy => hds y (chunksList_subset _ _ _ hc y hy))] at h2
            simpa using h2
          have hflat : (chunksList (ds.length / N) ds).flatten = ds :=
            chunksList_flatten _ hchunk ds
          have hsum := flatten_length_const 2 _ hpieces
          rw [hflat] at hsum
          omega
        · cases hxs
      · cases hxs
  · intro hlen
    have hNpos : 0 < N := by omega
    rw [hlen, Nat.mul_div_cancel 2 hNpos]
    rw [if_neg (by norm_num)]
    obtain ⟨hcount, hall2⟩ := chunksList_full 2 (by norm_num) N ds (by omega)
    obtain ⟨es, hes⟩ := mapM_isOk (fun c => uintFromHexStrict 1 c)
      (chunksList 2 ds)
      (fun c hc => by
        have hcd : ∀ b ∈ c, isDigitByte b :=
          fun b hb => hds b (chunksList_subset _ _ _ hc b hb)
        exact (uintFromHexStrict_ok_iff 1 [] c (Or.inl rfl) hcd).mpr
          (by have := hall2 c hc; omega))
    obtain ⟨heslen, -⟩ := mapM_ok_inv _ _ _ hes
    rw [hes]
    refine ⟨es, ?_⟩
    show (if es.length = N then Except.ok es
      else Except.error (Error.sizeMismatch N es.length)) = Except.ok es
    rw [if_pos (by rw [heslen, hcount])]

/-! Lemmas about the compact (minimal) digits. -/

theorem nibblesGo_lt : ∀ (f v : Nat), ∀ d ∈ nibblesGo f v, d < 16 := by
  intro f
  induction f with
  | zero =>
    intro v d hd
    simp only [nibblesGo, List.mem_singleton] at hd
    subst hd
    exact Nat.mod_lt _ (by norm_num)
  | succ f ih =>
    intro v d hd
    simp only [nibblesGo] at hd
    split at hd
    · simp only [List.mem_singleton] at hd
      omega
    · rcases List.mem_append.mp hd with hd | hd
      · exact ih _ d hd
      · simp only [List.mem_singleton] at hd
        subst hd
        exact Nat.mod_lt _ (by norm_num)

theorem nibblesGo_head : ∀ (f v : Nat), v ≤ f → v ≠ 0 →
    ∃ d rest, nibblesGo f v = d :: rest ∧ d ≠ 0 := by
  intro f
  induction f with
  | zero =>
    intro v h1 h2
    omega
  | succ f ih =>
    intro v h1 h2
    by_cases hv : v < 16
    · exact ⟨v, [], by simp [nibblesGo, hv], h2⟩
    · obtain ⟨d, rest, hgo, hd⟩ := ih (v / 16) (by omega) (by omega)
      exact ⟨d, rest ++ [v % 16], by simp [nibblesGo, hv, hgo], hd⟩

theorem uintCompactDigits_zero (cap : Bool) : uintCompactDigits cap 0 = [48] := by
  cases cap <;> rfl

theorem uintCompactDigits_head (cap : Bool) (v : Nat) (hv : v ≠ 0) :
    (uintCompactDigits cap v).head? ≠ some 48 := by
  obtain ⟨d, rest, hgo, hd⟩ := nibblesGo_head v v (le_refl v) hv
  have hdlt : d < 16 := nibblesGo_lt v v d (by rw [hgo]; simp)
  unfold uintCompactDigits nibbles
  rw [hgo]
  simp only [List.map_cons, List.head?_cons]
  intro h
  injection h with h
  unfold hexDigit hexDigitLower hexDigitUpper at h
  split_ifs at h <;> omega

theorem parseHexAcc_nibblesGo (cap : Bool) :
    ∀ (f v acc : Nat), v ≤ f →
      parseHexAcc acc ((nibblesGo f v).map (hexDigit cap)) =
        some (acc * 16 ^ (nibblesGo f v).length + v) := by
  intro f
  induction f with
  | zero =>
    intro v acc h
    have hv : v = 0 := by omega
    subst hv
    simp [nibblesGo, parseHexAcc, hexVal_hexDigit cap 0 (by norm_num)]
  | succ f ih =>
    intro v acc h
    by_cases hv : v < 16
    · simp only [nibblesGo, if_pos hv, List.map_cons, List.map_nil, parseHexAcc,
        hexVal_hexDigit cap v hv, List.length_cons, List.length_nil]
      simp
    · simp only [nibblesGo, if_neg hv, List.map_append, List.map_cons,
        List.map_nil, List.length_append, List.length_cons, List.length_nil]
      rw [parseHexAcc_append, ih (v / 16) acc (by omega)]
      simp only [Option.some_bind, parseHexAcc,
        hexVal_hexDigit cap (v % 16) (Nat.mod_lt _ (by norm_num))]
      congr 1
      rw [pow_succ, ← mul_assoc]
      generalize (16 : Nat) ^ (nibblesGo f (v / 16)).length = P
      generalize acc * P = A
      omega

theorem parseHexAcc_compactDigits (cap : Bool) (v : Nat) :
    parseHexAcc 0 (uintCompactDigits cap v) = some v := by
  unfold uintCompactDigits nibbles
  rw [parseHexAcc_nibblesGo cap v v 0 (le_refl v)]
  simp

/-! Case invariance of the decoders. -/

theorem hexVal_caseFold (b : Nat) : hexVal (caseFold b) = hexVal b := by
  unfold caseFold hexVal
  split_ifs <;> first | rfl | (exact congrArg some (by omega)) | (exfalso; omega)

theorem parseHexAcc_map_caseFold (l : List Nat) :
    ∀ acc, parseHexAcc acc (l.map caseFold) = parseHexAcc acc l := by
  induction l with
  | nil => intro acc; rfl
  | cons b rest ih =>
    intro acc
    simp only [List.map_cons, parseHexAcc, hexVal_caseFold]
    cases hexVal b <;> simp [ih]

theorem stripPfx_map_caseFold (l : List Nat) :
    stripPfx (l.map caseFold) = (stripPfx l).map caseFold := by
  cases l with
  | nil => rfl
  | cons a t =>
    cases t with
    | nil => rfl
    | cons b rest =>
      simp only [List.map_cons, stripPfx]
      have hiff : (caseFold a = 48 ∧ (caseFold b = 120 ∨ caseFold b = 88)) ↔
          (a = 48 ∧ (b = 120 ∨ b = 88)) := by
        unfold caseFold
        split_ifs <;> omega
      by_cases hcond : a = 48 ∧ (b = 120 ∨ b = 88)
      · rw [if_pos (hiff.mpr hcond), if_pos hcond]
      · rw [if_neg (fun hc => hcond (hiff.mp hc)), if_neg hcond]
        simp

theorem seqStripPfx_map_caseFold (l : List Nat) :
    seqStripPfx (l.map caseFold) = (seqStripPfx l).map caseFold := by
  cases l with
  | nil => rfl
  | cons a t =>
    cases t with
    | nil => rfl
    | cons b rest =>
      simp only [List.map_cons, seqStripPfx]
      have hiff : (caseFold a = 48 ∧ caseFold b = 120) ↔ (a = 48 ∧ b = 120) := by
        unfold caseFold
        split_ifs <;> omega
      by_cases hcond : a = 48 ∧ b = 120
      · rw [if_pos (hiff.mpr hcond), if_pos hcond]
      · rw [if_neg (fun hc => hcond (hiff.mp hc)), if_neg hcond]
        simp

theorem uintFromHexStrict_caseFold (w : Nat) (s : List Nat) :
    uintFromHexStrict w (s.map caseFold) = uintFromHexStrict w s := by
  unfold uintFromHexStrict
  rw [stripPfx_map_caseFold, List.length_map, parseHexAcc_map_caseFold]

theorem uintFromHexCompact_caseFold (w : Nat) (s : List Nat) :
    uintFromHexCompact w (s.map caseFold) = uintFromHexCompact w s := by
  unfold uintFromHexCompact
  rw [stripPfx_map_caseFold, List.length_map, parseHexAcc_map_caseFold]

theorem chunksGo_map_caseFold (k : Nat) :
    ∀ (f : Nat) (l : List Nat),
      chunksGo k f (l.map caseFold) = (chunksGo k f l).map (List.map caseFold) := by
  intro f
  induction f with
  | zero =>
    intro l
    rw [chunksGo_zero, chunksGo_zero]
    rfl
  | succ f ih =>
    intro l
    cases l with
    | nil => rfl
    | cons x xs =>
      show ((x :: xs).map caseFold).take k ::
          chunksGo k f (((x :: xs).map caseFold).drop k) = _
      rw [← List.map_take, ← List.map_drop, ih]
      rfl

theorem chunksList_map_caseFold (k : Nat) (l : List Nat) :
    chunksList k (l.map caseFold) = (chunksList k l).map (List.map caseFold) := by
  unfold chunksList
  rw [List.length_map]
  split
  · rfl
  · exact chunksGo_map_caseFold k _ l

theorem mapM_congr {α β : Type} (f g : α → Except Error β) :
    ∀ L : List α, (∀ a ∈ L, f a = g a) → L.mapM f = L.mapM g := by
  intro L
  induction L with
  | nil => intro _; rfl
  | cons a t ih =>
    intro h
    rw [List.mapM_cons, List.mapM_cons, h a (by simp),
      ih (fun x hx => h x (by simp [hx]))]

theorem arrayFromHex_caseFold (N : Nat) (s : List Nat) :
    arrayFromHex N (s.map caseFold) = arrayFromHex N s := by
  unfold arrayFromHex
  rw [stripPfx_map_caseFold, List.length_map, chunksList_map_caseFold, mapM_map,
    mapM_congr _ _ _ (fun a _ => uintFromHexStrict_caseFold 1 a)]

theorem seq_from_bytes_caseFold (k : Nat) (s : List Nat) :
    seq_from_bytes (fun c => uintFromHexStrict 1 c) (s.map caseFold) k =
      seq_from_bytes (fun c => uintFromHexStrict 1 c) s k := by
  unfold seq_from_bytes seqDecodeBody
  rw [seqStripPfx_map_caseFold, List.length_map, chunksList_map_caseFold,
    mapM_map, mapM_congr _ _ _ (fun a _ => uintFromHexStrict_caseFold 1 a)]
  simp only [ne_eq, List.map_eq_nil_iff]

/-! Digits of capitalized encodings. -/

theorem isUpperHexByte_hexDigitUpper : ∀ n : Nat, n < 16 →
    isUpperHexByte (hexDigitUpper n) := by
  decide

theorem strictDigits_upper (w : Nat) :
    ∀ v, ∀ b ∈ uintStrictDigits true w v, isUpperHexByte b := by
  induction w with
  | zero =>
    intro v b hb
    simp [uintStrictDigits] at hb
  | succ w ih =>
    intro v b hb
    simp only [uintStrictDigits, List.mem_append, List.mem_cons,
      List.not_mem_nil, or_false] at hb
    rcases hb with hb | rfl | rfl
    · exact ih _ b hb
    · exact isUpperHexByte_hexDigitUpper _
        (by have : v % 256 < 256 := Nat.mod_lt _ (by norm_num); omega)
    · exact isUpperHexByte_hexDigitUpper _ (Nat.mod_lt _ (by norm_num))

theorem compactDigits_upper (v : Nat) :
    ∀ b ∈ uintCompactDigits true v, isUpperHexByte b := by
  intro b hb
  unfold uintCompactDigits nibbles at hb
  simp only [List.mem_map] at hb
  obtain ⟨d, hd, rfl⟩ := hb
  exact isUpperHexByte_hexDigitUpper d (nibblesGo_lt v v d hd)

theorem arrayDigits_upper (bs : List Nat) :
    ∀ b ∈ (bs.map (fun x => uintStrictDigits true 1 x)).flatten,
      isUpperHexByte b := by
  intro b hb
  simp only [List.mem_flatten, List.mem_map] at hb
  obtain ⟨piece, ⟨x, _, rfl⟩, hbp⟩ := hb
  exact strictDigits_upper 1 x b hbp

/-! The claims. -/

/-- C1: decoding into the strict 20-byte array type produces exactly the
listed `SizeMismatch` renderings — the empty string and `"0x"` each fail
with ``expected buff size `20` got `0` ``, `"df38"` fails with
``expected buff size `20` got `2` ``, a 20-hex-digit string fails with
``expected buff size `2` got `1` ``, and a full 40-hex-digit string
decodes successfully. -/
theorem claim_c1_size_mismatch_renderings :
    arrayFromHex 20 (strBytes "") = .error (.sizeMismatch 20 0) ∧
    arrayFromHex 20 (strBytes "0x") = .error (.sizeMismatch 20 0) ∧
    Error.render (.sizeMismatch 20 0) = "expected buff size `20` got `0`" ∧
    arrayFromHex 20 (strBytes "df38") = .error (.sizeMismatch 20 2) ∧
    Error.render (.sizeMismatch 20 2) = "expected buff size `20` got `2`" ∧
    arrayFromHex 20 (strBytes "df389295484b3059a472") =
      .error (.sizeMismatch 2 1) ∧
    Error.render (.sizeMismatch 2 1) = "expected buff size `2` got `1`" ∧
    arrayFromHex 20 (strBytes "df389295484b3059a4726dc6d8a57f71bb5f4c81") =
      .ok [0xdf, 0x38, 0x92, 0x95, 0x48, 0x4b, 0x30, 0x59, 0xa4, 0x72,
           0x6d, 0xc6, 0xd8, 0xa5, 0x7f, 0x71, 0xbb, 0x5f, 0x4c, 0x81] := by
  refine ⟨by decide, by decide, by decide, by decide, by decide, by decide,
    by decide, by decide⟩

/-- C2: the claim says a zero `size()` fails with `BadSequenceSize`; in the
code the remainder `src.len() % hexsize` is evaluated before the
`hexsize != 0` guard, so `size() == 0` is a remainder-by-zero panic
instead.  For every positive `size()` the claim holds: the decode yields
the bad-sequence-size error exactly when the stripped digit count is zero
or not a multiple of `2*size()`. -/
theorem claim_c2_bad_sequence_size :
    (∀ (dec : List Nat → Except Error Nat) (raw : List Nat),
        seq_from_bytes dec raw 0 = .panic) ∧
    (∀ (dec : List Nat → Except Error Nat) (raw : List Nat) (s : Nat), 0 < s →
        (seq_from_bytes dec raw s = .badSequenceSize ↔
          (seqStripPfx raw).length = 0 ∨
            (seqStripPfx raw).length % (2 * s) ≠ 0)) := by
  constructor
  · intro dec raw
    unfold seq_from_bytes seqDecodeBody
    rw [if_pos (by norm_num)]
  · intro dec raw s hs
    unfold seq_from_bytes seqDecodeBody
    rw [if_neg (by omega)]
    by_cases hcond : (seqStripPfx raw).length % (s * 2) = 0 ∧ seqStripPfx raw ≠ []
    · rw [if_pos hcond]
      obtain ⟨hmod, hne⟩ := hcond
      have hlen0 : (seqStripPfx raw).length ≠ 0 := by
        intro h0
        exact hne (List.eq_nil_of_length_eq_zero h0)
      constructor
      · intro h
        split at h <;> cases h
      · intro h
        exfalso
        rcases h with h | h
        · exact hlen0 h
        · rw [Nat.mul_comm 2 s] at h
          exact h hmod
    · rw [if_neg hcond]
      constructor
      · intro _
        by_cases h0 : seqStripPfx raw = []
        · exact Or.inl (by simp [h0])
        · refine Or.inr (fun hmod => ?_)
          refine hcond ⟨?_, h0⟩
          rw [Nat.mul_comm s 2]
          exact hmod
      · intro _
        rfl

theorem claim_c2_bad_sequence_size_witness :
    seq_from_bytes (fun c => uintFromHexStrict 1 c) (strBytes "abc") 1 =
      .badSequenceSize :=
  (claim_c2_bad_sequence_size.2 (fun c => uintFromHexStrict 1 c)
    (strBytes "abc") 1 (by norm_num)).mpr (by decide)

/-- C3: for every strict configuration, decoding the encoding of a value
gives the value back — for the four unsigned integer widths (any value
below `256^w`) and for byte arrays of lengths 1 through 64. -/
theorem claim_c3_roundtrip :
    (∀ (c : HexConf) (w v : Nat), (w = 1 ∨ w = 2 ∨ w = 4 ∨ w = 8) →
        v < 256 ^ w → uintFromHexStrict w (uintIntoHex c w v) = .ok v) ∧
    (∀ (c : HexConf) (bs : List Nat), 1 ≤ bs.length → bs.length ≤ 64 →
        (∀ b ∈ bs, b < 256) →
        arrayFromHex bs.length (arrayIntoHex c bs) = .ok bs) := by
  constructor
  · intro c w v _ hv
    exact uint_roundtrip c w v hv
  · intro c bs h1 _ hbs
    refine array_roundtrip c bs ?_ hbs
    intro h
    subst h
    simp at h1

theorem claim_c3_roundtrip_witness :
    uintFromHexStrict 8 (uintIntoHex ⟨true, true⟩ 8 65535) = .ok 65535 ∧
    arrayFromHex 2 (arrayIntoHex ⟨false, false⟩ [0, 255]) = .ok [0, 255] :=
  ⟨claim_c3_roundtrip.1 ⟨true, true⟩ 8 65535 (by norm_num) (by norm_num),
   claim_c3_roundtrip.2 ⟨false, false⟩ [0, 255] (by norm_num) (by norm_num)
     (by decide)⟩

/-- C4: the sequence codec on byte elements under the strict-prefixed
configuration encodes `[0xde, 0xad, 0xbe, 0xef]` to exactly the string
`"0xdeadbeef"` (one marker at the start, no separators), and decodes
`"0xdeadbeef"` back to `[0xde, 0xad, 0xbe, 0xef]` in order through
2-digit chunks and the element codec's strict decode. -/
theorem claim_c4_seq_chunking :
    bytesToString (seqSerialize ⟨true, false⟩ [0xde, 0xad, 0xbe, 0xef]) =
      "0xdeadbeef" ∧
    seq_from_bytes (fun c => uintFromHexStrict 1 c) (strBytes "0xdeadbeef") 1 =
      .ok [0xde, 0xad, 0xbe, 0xef] :=
  ⟨by decide, by decide⟩

/-- C5: strict width invariant — for every configuration the encode output
carries exactly `2 * byte_width` hex digits after the optional marker, for
integers of any width and byte arrays of any positive length; and a strict
decode of a marker-plus-digits input succeeds exactly when the digit count
equals `2 * byte_width`. -/
theorem claim_c5_strict_width (conf : HexConf) (w N v : Nat)
    (bs p ds : List Nat) (hbs : bs.length = N) (hN : 1 ≤ N)
    (hp : p = [] ∨ p = [48, 120] ∨ p = [48, 88])
    (hds : ∀ b ∈ ds, isDigitByte b) :
    (stripPfx (uintIntoHex conf w v)).length = 2 * w ∧
    (stripPfx (arrayIntoHex conf bs)).length = 2 * N ∧
    ((∃ x, uintFromHexStrict w (p ++ ds) = .ok x) ↔ ds.length = 2 * w) ∧
    ((∃ xs, arrayFromHex N (p ++ ds) = .ok xs) ↔ ds.length = 2 * N) := by
  refine ⟨?_, ?_, ?_, ?_⟩
  · rw [stripPfx_uintIntoHex, length_strictDigits]
  · rw [stripPfx_arrayIntoHex,
      length_flatten_map _ 2 (fun b => length_strictDigits conf.withcap 1 b),
      hbs]
  · exact uintFromHexStrict_ok_iff w p ds hp hds
  · exact arrayFromHex_ok_iff N hN p ds hp hds

theorem claim_c5_strict_width_witness :
    (stripPfx (uintIntoHex ⟨true, true⟩ 1 255)).length = 2 * 1 ∧
    ((∃ xs, arrayFromHex 1 ([48, 120] ++ strBytes "ab") = .ok xs) ↔
      (strBytes "ab").length = 2 * 1) := by
  have h := claim_c5_strict_width ⟨true, true⟩ 1 1 255 [0] [48, 120]
    (strBytes "ab") rfl (by norm_num) (Or.inr (Or.inl rfl)) (by decide)
  exact ⟨h.1, h.2.2.2⟩

/-- C6: every compact integer configuration encodes `0` as the single digit
`'0'` and a nonzero value as its big-endian digits with no leading `'0'`;
compact decode accepts any digit count from 1 to `2*width` and fails with
`SizeMismatch` beyond `2*width`. -/
theorem claim_c6_compact (conf : HexConf) (w v : Nat) (p ds : List Nat)
    (hp : p = [] ∨ p = [48, 120] ∨ p = [48, 88])
    (hds : ∀ b ∈ ds, isDigitByte b) :
    uintCompactDigits conf.withcap 0 = [48] ∧
    parseHexAcc 0 (uintCompactDigits conf.withcap v) = some v ∧
    (v ≠ 0 → (uintCompactDigits conf.withcap v).head? ≠ some 48) ∧
    (1 ≤ ds.length → ds.length ≤ 2 * w →
      ∃ x, uintFromHexCompact w (p ++ ds) = .ok x) ∧
    (2 * w < ds.length →
      uintFromHexCompact w (p ++ ds) =
        .error (.sizeMismatch (2 * w) ds.length)) := by
  have hstrip : stripPfx (p ++ ds) = ds := stripPfx_sides p ds hp hds
  refine ⟨uintCompactDigits_zero _, parseHexAcc_compactDigits _ _,
    uintCompactDigits_head _ v, ?_, ?_⟩
  · intro h1 h2
    unfold uintFromHexCompact
    rw [hstrip, if_pos ⟨h1, h2⟩]
    obtain ⟨x, hx⟩ := parseHexAcc_isSome ds hds 0
    exact ⟨x, by rw [hx]⟩
  · intro h
    unfold uintFromHexCompact
    rw [hstrip, if_neg (by omega)]

theorem claim_c6_compact_witness :
    parseHexAcc 0 (uintCompactDigits false 255) = some 255 ∧
    (∃ x, uintFromHexCompact 8 ([48, 120] ++ strBytes "ff") = .ok x) ∧
    uintFromHexCompact 1 ([] ++ strBytes "abc") =
      .error (.sizeMismatch (2 * 1) (strBytes "abc").length) := by
  have h := claim_c6_compact ⟨false, false⟩ 8 255 [48, 120] (strBytes "ff")
    (Or.inr (Or.inl rfl)) (by decide)
  have h2 := claim_c6_compact ⟨false, false⟩ 1 0 [] (strBytes "abc")
    (Or.inl rfl) (by decide)
  exact ⟨h.2.1, h.2.2.2.1 (by decide) (by decide), h2.2.2.2.2 (by decide)⟩

/-- C7: the option codec serializes a present value through the framework's
present signal (`Some(255)` as a prefixed-compact `u64` becomes the string
`"0xff"`) and an absent value as the null signal; on decode, string and
bytes deliveries produce `some` of the wrapped decode, null and unit
deliveries produce `none`, and a present-wrapped delivery recurses into
the same byte-oriented path. -/
theorem claim_c7_option :
    serHexOptSerialize (fun v => uintIntoHexCompact ⟨true, false⟩ v)
      (some 255) = .someStr (strBytes "0xff") ∧
    (∀ enc : Nat → List Nat, serHexOptSerialize enc none = .null) ∧
    (∀ (dec : List Nat → Except Error Nat) (s : List Nat),
      optVisit dec (.str s) = (dec s).map some ∧
      optVisit dec (.bytes s) = (dec s).map some) ∧
    (∀ dec : List Nat → Except Error Nat,
      optVisit dec .null = .ok none ∧ optVisit dec .unit = .ok none) ∧
    (∀ (dec : List Nat → Except Error Nat) (d : Delivery),
      optVisit dec (.present d) = optVisit dec d) :=
  ⟨by decide, fun enc => rfl, fun dec s => ⟨rfl, rfl⟩,
    fun dec => ⟨rfl, rfl⟩, fun dec d => rfl⟩

/-- C8: decode results are unchanged when hex letters change case (inputs
with equal case foldings decode identically, for strict and compact
integers, arrays and sequences), and a capitalized configuration emits
digits only in `0-9`/`A-F`. -/
theorem claim_c8_case (w N k v : Nat) (s t bs : List Nat)
    (hst : s.map caseFold = t.map caseFold) :
    uintFromHexStrict w s = uintFromHexStrict w t ∧
    uintFromHexCompact w s = uintFromHexCompact w t ∧
    arrayFromHex N s = arrayFromHex N t ∧
    seq_from_bytes (fun c => uintFromHexStrict 1 c) s k =
      seq_from_bytes (fun c => uintFromHexStrict 1 c) t k ∧
    (∀ b ∈ uintStrictDigits true w v, isUpperHexByte b) ∧
    (∀ b ∈ uintCompactDigits true v, isUpperHexByte b) ∧
    (∀ b ∈ (bs.map (fun x => uintStrictDigits true 1 x)).flatten,
      isUpperHexByte b) := by
  refine ⟨?_, ?_, ?_, ?_, strictDigits_upper w v, compactDigits_upper v,
    arrayDigits_upper bs⟩
  · rw [← uintFromHexStrict_caseFold w s, hst, uintFromHexStrict_caseFold]
  · rw [← uintFromHexCompact_caseFold w s, hst, uintFromHexCompact_caseFold]
  · rw [← arrayFromHex_caseFold N s, hst, arrayFromHex_caseFold]
  · rw [← seq_from_bytes_caseFold k s, hst, seq_from_bytes_caseFold]

theorem claim_c8_case_witness :
    uintFromHexStrict 1 (strBytes "FF") = uintFromHexStrict 1 (strBytes "ff") :=
  (claim_c8_case 1 1 1 0 (strBytes "FF") (strBytes "ff") [] (by decide)).1

/-- C9: serializing the empty sequence emits only the optional marker, the
sequence decoder rejects that very output with the bad-sequence-size
error (for any positive element size), and hence the empty sequence never
round-trips through the sequence codec. -/
theorem claim_c9_empty_seq (b cap : Bool) (dec : List Nat → Except Error Nat)
    (s : Nat) (hs : 0 < s) :
    seqSerialize ⟨b, cap⟩ [] = (if b then [48, 120] else []) ∧
    seq_from_bytes dec (seqSerialize ⟨b, cap⟩ []) s = .badSequenceSize ∧
    (∀ l, seq_from_bytes dec (seqSerialize ⟨b, cap⟩ []) s ≠ .ok l) := by
  have henc : seqSerialize ⟨b, cap⟩ [] = (if b then [48, 120] else []) := by
    unfold seqSerialize
    simp
  have hbad : seq_from_bytes dec (seqSerialize ⟨b, cap⟩ []) s =
      .badSequenceSize := by
    rw [henc]
    unfold seq_from_bytes seqDecodeBody
    have hstrip : seqStripPfx (if b then [48, 120] else []) = [] := by
      cases b <;> simp [seqStripPfx]
    rw [hstrip, if_neg (by omega), if_neg (by simp)]
  exact ⟨henc, hbad, fun l h => by rw [hbad] at h; cases h⟩

theorem claim_c9_empty_seq_witness :
    seq_from_bytes (fun c => uintFromHexStrict 1 c)
      (seqSerialize ⟨true, false⟩ []) 1 = .badSequenceSize :=
  (claim_c9_empty_seq true false (fun c => uintFromHexStrict 1 c) 1
    (by norm_num)).2.1

/-- C10: the sequence decoder strips a leading marker only for the exact
lowercase pair `0x`; an input beginning with `0X` keeps those two bytes,
which flow into chunk splitting and element decoding (so `"0Xdeadbeef"`
fails on its first chunk instead of decoding as a prefixed sequence). -/
theorem claim_c10_seq_upper_marker (rest : List Nat)
    (dec : List Nat → Except Error Nat) (s : Nat) :
    seqStripPfx (48 :: 88 :: rest) = 48 :: 88 :: rest ∧
    seq_from_bytes dec (48 :: 88 :: rest) s =
      seqDecodeBody dec (48 :: 88 :: rest) s ∧
    seq_from_bytes (fun c => uintFromHexStrict 1 c) (strBytes "0Xdeadbeef") 1 =
      .elemError (.sizeMismatch 2 0) := by
  have hstrip : seqStripPfx (48 :: 88 :: rest) = 48 :: 88 :: rest := by
    simp [seqStripPfx]
  refine ⟨hstrip, ?_, by decide⟩
  unfold seq_from_bytes
  rw [hstrip]

end SerdeHex
